import Mathlib

/-!
Shallow embedding of the `alien` HTTP router (src/alien.go): the per-method
character trie (`Node`, `insert`, `find`), the parameter extractor
(`ParseParameter`), the flat-encoding loader (`Parameter.Load`), and the
middleware fold of `Route.ServeHTTP`.  Strings are modelled as `List Char`
(one entry per Go rune); Go's mutable tree updates are modelled as pure
functional updates; Go's `(value, error)` returns are modelled as pairs
with an `Option String` error component carrying the exact error message.
-/

namespace Alien

/-- Error message of `errRouteNotFound` in src/alien.go. -/
def routeNotFound : String := "Route not found"

/-- Error message of `errBadPattern` in src/alien.go. -/
def badPattern : String := "bad pattern"

/-- The terminal sentinel `eof = rune(0)` of src/alien.go. -/
def eof : Char := Char.ofNat 0

/-- The `Classify` enumeration of node kinds (src/alien.go lines 31-39). -/
inductive Classify : Type where
  | NodeRoot
  | nodeParam
  | nodeNormal
  | nodeCatchAll
  | nodeEnd
deriving DecidableEq, Repr

/-- A registered route.  The Go `Route` carries a pattern string, a handler
and middleware; for the trie only the pattern matters, and `tag` stands for
the identity of the handler so distinct registrations are distinguishable. -/
structure Route : Type where
  path : List Char
  tag : Nat
deriving DecidableEq, Repr

/-- A trie node (src/alien.go lines 41-47): a key rune, an optional stored
`Route` (present on terminal nodes), a kind, and an ordered children list.
The mutex is concurrency-only state and has no pure counterpart. -/
inductive Node : Type where
  | mk : Char → Option Route → Classify → List Node → Node

/-- Key rune of a node. -/
def Node.key : Node → Char
  | .mk k _ _ _ => k

/-- Stored route of a node (`value` field). -/
def Node.value : Node → Option Route
  | .mk _ v _ _ => v

/-- Kind of a node (`classify` field). -/
def Node.classify : Node → Classify
  | .mk _ _ c _ => c

/-- Children of a node. -/
def Node.children : Node → List Node
  | .mk _ _ _ cs => cs

/-- `(*Node).findChild` (src/alien.go lines 61-68): first child whose key
equals the given rune, scanning the children in order. -/
def Node.findChild (node : Node) (key : Char) : Option Node :=
  node.children.find? (fun c => c.key == key)

/-- Kind given to a fresh child created for a pattern character by the
`switch character` in `insert` (src/alien.go lines 101-108). -/
def kindOf (c : Char) : Classify :=
  if c = ':' then .nodeParam else if c = '*' then .nodeCatchAll else .nodeNormal

/-- Replace the first child with the given key by its image under `f`,
leaving the list unchanged when no child has the key.  This is the pure
counterpart of `insert` descending into an existing child and mutating it
in place. -/
def updateFirst (key : Char) (f : Node → Node) : List Node → List Node
  | [] => []
  | c :: cs => if c.key == key then f c :: cs else c :: updateFirst key f cs

/-- The character scan of `(*Node).insert` (src/alien.go lines 86-110),
processing the remaining pattern runes at the current `level` node.  A
`nodeParam` level swallows every rune up to the next `/`; otherwise the
scan descends into an existing child with the current rune as key, or
branches a fresh child whose kind is given by `kindOf`.  After the scan a
terminal child keyed `eof` holding the route is appended unconditionally. -/
def Node.insertLoop (value : Route) : Node → List Char → Node
  | .mk k v cl cs, [] =>
      .mk k v cl (cs ++ [.mk eof (some value) .nodeEnd []])
  | .mk k v cl cs, ch :: rest =>
      if cl = .nodeParam ∧ ch ≠ '/' then
        Node.insertLoop value (.mk k v cl cs) rest
      else
        match (Node.mk k v cl cs).findChild ch with
        | some _ =>
            .mk k v cl (updateFirst ch (fun child => Node.insertLoop value child rest) cs)
        | none =>
            .mk k v cl (cs ++ [Node.insertLoop value (.mk ch none (kindOf ch) []) rest])

/-- `(*Node).insert` (src/alien.go lines 70-112).  Returns the updated tree
together with the error, mirroring that Go returns every error before any
mutation: on error the tree component is the unchanged receiver. -/
def Node.insert (node : Node) (pattern : List Char) (value : Route) :
    Node × Option String :=
  if node.classify ≠ .NodeRoot then (node, some "insert on non root node")
  else
    match pattern with
    | [] => (node, some "empty pattern is not support")
    | c :: _ =>
      if c ≠ '/' then (node, some "path must start with '/'")
      else (node.insertLoop value pattern, none)

/-- The character walk of `(*Node).find` (src/alien.go lines 122-149):
per rune, a mid-parameter run swallows runes up to the next `/`; otherwise
a `:`-keyed child is entered first, then a `*`-keyed child (which ends the
walk immediately), then the literal child for the current rune; with none
of those the walk fails.  Returns the final `level` node, or `none` for the
mid-scan `RouteNotFound` return. -/
def Node.findLoop : Node → Bool → List Char → Option Node
  | level, _, [] => some level
  | level, isParam, ch :: rest =>
      let c := level.findChild ch
      if isParam ∧ ch ≠ '/' then level.findLoop true rest
      else
        match level.findChild ':' with
        | some param => param.findLoop true rest
        | none =>
          match level.findChild '*' with
          | some catchAll => some catchAll
          | none =>
            match c with
            | some child => child.findLoop false rest
            | none => none

/-- `(*Node).find` (src/alien.go lines 114-163).  After the walk, the final
node's `eof`-keyed child supplies the route; failing that, a `/`-keyed child
owning an `eof`-keyed child does; otherwise the lookup fails. -/
def Node.find (node : Node) (path : List Char) : Option Route × Option String :=
  if node.classify ≠ .NodeRoot then (none, some "non Node search")
  else
    match path with
    | [] => (none, some routeNotFound)
    | _ :: _ =>
      match node.findLoop false path with
      | none => (none, some routeNotFound)
      | some level =>
        match level.findChild eof with
        | some e => (e.value, none)
        | none =>
          match level.findChild '/' with
          | some slash =>
            match slash.findChild eof with
            | some e => (e.value, none)
            | none => (none, some routeNotFound)
          | none => (none, some routeNotFound)

/-- A fresh per-method root node, as allocated by `addRoute`
(`&Node{classify: NodeRoot}`): zero-valued key, no route, no children. -/
def root0 : Node := .mk eof none .NodeRoot []

/-- Register a sequence of (pattern, route) pairs on a trie, keeping the
tree unchanged whenever `insert` reports an error, exactly as the Go
receiver is left unmodified on an error return. -/
def insertAll (node : Node) : List (List Char × Route) → Node
  | [] => node
  | (p, r) :: rest => insertAll (node.insert p r).1 rest

/-- `strings.Split` on a one-rune separator, modelled on rune lists.
`splitChar sep s` always returns at least one (possibly empty) piece. -/
def splitChar (sep : Char) : List Char → List (List Char)
  | [] => [[]]
  | c :: rest =>
    if c = sep then [] :: splitChar sep rest
    else
      match splitChar sep rest with
      | [] => [[c]]
      | t :: ts => (c :: t) :: ts

/-- `strings.Join` with a one-rune separator. -/
def joinChar (sep : Char) : List (List Char) → List Char
  | [] => []
  | [x] => x
  | x :: xs => x ++ sep :: joinChar sep xs

/-- Append `name:value` onto the comma-separated accumulator, exactly the
`if len(result) == 0` branch pair of `ParseParameter`. -/
def appendPair (acc name value : List Char) : List Char :=
  if acc = [] then name ++ ':' :: value
  else acc ++ ',' :: (name ++ ':' :: value)

/-- Default parameter name for an anonymous catch-all segment. -/
def catchName : List Char := ['c', 'a', 't', 'c', 'h']

/-- The segment loop of `ParseParameter` (src/alien.go lines 202-228):
`p1` is the split matched path, `s2` the number of pattern segments, and
the loop walks the remaining pattern segments carrying the index `k` and
the accumulated result.  A `:`-segment records the corresponding path
segment; a `*`-segment must be last (else `badPattern`), defaults its name
to `catch`, takes the `/`-join of the remaining path segments, and ends
extraction. -/
def ppLoop (p1 : List (List Char)) (s2 : Nat) :
    List (List Char) → Nat → List Char → List Char × Option String
  | [], _, acc => (acc, none)
  | v :: rest, k, acc =>
    if v.head? = some ':' then
      ppLoop p1 s2 rest (k + 1) (appendPair acc v.tail (p1.getD k []))
    else if v.head? = some '*' then
      if k ≠ s2 - 1 then (acc, some badPattern)
      else (appendPair acc (if v.tail = [] then catchName else v.tail)
              (joinChar '/' (p1.drop k)), none)
    else ppLoop p1 s2 rest (k + 1) acc

/-- `ParseParameter` (src/alien.go lines 192-231): only runs when the
pattern contains `:` or `*`; fails with `badPattern` when the path has
fewer `/`-separated segments than the pattern; otherwise runs the segment
loop. -/
def ParseParameter (mat pattern : List Char) : List Char × Option String :=
  if pattern.contains ':' || pattern.contains '*' then
    let p1 := splitChar '/' mat
    let p2 := splitChar '/' pattern
    if p1.length < p2.length then ([], some badPattern)
    else ppLoop p1 p2.length p2 0 []
  else ([], none)

/-- Go map assignment `parameter[k] = v` on an association-list model:
overwrite the existing binding for `k` or append a fresh one. -/
def upsert : List (List Char × List Char) → List Char → List Char →
    List (List Char × List Char)
  | [], k, v => [(k, v)]
  | (k', v') :: rest, k, v =>
    if k' = k then (k, v) :: rest else (k', v') :: upsert rest k v

/-- The fragment loop of `Parameter.Load` (src/alien.go lines 237-247):
split each comma-separated fragment on `:`; fragments that do not split
into exactly two parts are silently skipped, the rest are stored. -/
def loadPairs (m : List (List Char × List Char)) :
    List (List Char) → List (List Char × List Char)
  | [] => m
  | frag :: rest =>
    loadPairs
      (match splitChar ':' frag with
       | [n, v] => upsert m n v
       | _ => m) rest

/-- `Parameter.Load` starting from the fresh map that `GetParameter`
allocates: the handler-side decoding of the flat parameter string. -/
def loadParams (source : List Char) : List (List Char × List Char) :=
  loadPairs [] (splitChar ',' source)

/-- `Parameter.Get` / map lookup: first binding for the key, if any. -/
def lookupP (m : List (List Char × List Char)) (k : List Char) : Option (List Char) :=
  (m.find? (fun p => p.1 == k)).map (fun p => p.2)

/-- The middleware fold of `(*Route).ServeHTTP` (src/alien.go lines
175-181): starting from the base handler, each middleware in registration
order wraps the accumulated handler, so the last one ends up outermost.
Handlers are opaque, hence the type parameter. -/
def applyMiddleware {α : Type} (middleware : List (α → α)) (base : α) : α :=
  middleware.foldl (fun acc w => w acc) base

/-- Resolution of the final scan node, written from the spec's wording
(§4.3): the final node must have a Terminal child (keyed by the terminal
sentinel per the spec's glossary) — then its stored Route is returned; if
it does not, but it has a `/`-keyed child that itself has a Terminal
child, accept that; otherwise fail with `RouteNotFound`.  Stated as an
independent definition to be compared against `Node.find`. -/
def specResolve (level : Node) : Option Route × Option String :=
  match level.findChild eof with
  | some terminal => (terminal.value, none)
  | none =>
    match level.findChild '/' with
    | some slash =>
      match slash.findChild eof with
      | some terminal => (terminal.value, none)
      | none => (none, some routeNotFound)
    | none => (none, some routeNotFound)

/-- Keys of the non-terminal children of a node, in order. -/
def nonEndKeys (cs : List Node) : List Char :=
  (cs.filter (fun c => c.classify != Classify.nodeEnd)).map Node.key

/-- Well-formedness of a trie: at every node the keys of the non-terminal
children are pairwise distinct.  (Terminal children can repeat the
sentinel key: a duplicate registration appends a second terminal child.) -/
inductive KeysWF : Node → Prop where
  | mk : ∀ {k : Char} {v : Option Route} {cl : Classify} {cs : List Node},
      (nonEndKeys cs).Nodup → (∀ c ∈ cs, KeysWF c) → KeysWF (.mk k v cl cs)

mutual
/-- Simulation between tries: the second tree is the first with extra
trailing children appended at some nodes, where every extra child is keyed
by the terminal sentinel and the node already owns a sentinel-keyed child
before the extras.  `findChild` — hence `find` — cannot observe such
extras, since it returns the first key match. -/
inductive Sim : Node → Node → Prop where
  | mk : ∀ {k : Char} {v : Option Route} {cl : Classify} {cs₁ cs₂ ex : List Node},
      SimList cs₁ cs₂ →
      (ex ≠ [] → (∀ e ∈ ex, e.key = eof) ∧ ∃ c ∈ cs₂, c.key = eof) →
      Sim (.mk k v cl cs₁) (.mk k v cl (cs₂ ++ ex))

/-- Pointwise simulation of children lists. -/
inductive SimList : List Node → List Node → Prop where
  | nil : SimList [] []
  | cons : ∀ {a b : Node} {as bs : List Node},
      Sim a b → SimList as bs → SimList (a :: as) (b :: bs)
end

/-! ### Helper lemmas about the embedded operations -/

@[simp]
theorem Node.key_mk (k : Char) (v : Option Route) (cl : Classify) (cs : List Node) :
    (Node.mk k v cl cs).key = k := rfl

@[simp]
theorem Node.value_mk (k : Char) (v : Option Route) (cl : Classify) (cs : List Node) :
    (Node.mk k v cl cs).value = v := rfl

@[simp]
theorem Node.classify_mk (k : Char) (v : Option Route) (cl : Classify) (cs : List Node) :
    (Node.mk k v cl cs).classify = cl := rfl

@[simp]
theorem Node.children_mk (k : Char) (v : Option Route) (cl : Classify) (cs : List Node) :
    (Node.mk k v cl cs).children = cs := rfl

theorem insertLoop_key (value : Route) (n : Node) (cs : List Char) :
    (Node.insertLoop value n cs).key = n.key := by
  induction cs generalizing n with
  | nil => cases n; simp [Node.insertLoop]
  | cons ch rest ih =>
    cases n with
    | mk k v cl children =>
      rw [Node.insertLoop]
      split
      · exact ih _
      · split <;> simp

theorem insertLoop_classify (value : Route) (n : Node) (cs : List Char) :
    (Node.insertLoop value n cs).classify = n.classify := by
  induction cs generalizing n with
  | nil => cases n; simp [Node.insertLoop]
  | cons ch rest ih =>
    cases n with
    | mk k v cl children =>
      rw [Node.insertLoop]
      split
      · exact ih _
      · split <;> simp

/-! ### Claim theorems -/

/-- Claim C1 — what the code actually does at the claimed scenario.
Registering the named catch-all pattern `/hello/*name` succeeds, but the
subsequent lookup of `/hello/my/magical/sheeplike/ship` fails with
`RouteNotFound` instead of returning the registered route: `insert` only
swallows the characters after `:` (nodeParam), so the name characters
after `*` become literal child nodes and the terminal ends up below them,
while `find` stops at the `*` node, which has no terminal child.  The
string-based extractor alone would have produced the claimed parameter
pair, as the last conjunct shows. -/
theorem c1_code_behavior :
    (root0.insert "/hello/*name".data ⟨"/hello/*name".data, 1⟩).2 = none ∧
    ((root0.insert "/hello/*name".data ⟨"/hello/*name".data, 1⟩).1.find
        "/hello/my/magical/sheeplike/ship".data) = (none, some routeNotFound) ∧
    ParseParameter "/hello/my/magical/sheeplike/ship".data "/hello/*name".data
      = ("name:my/magical/sheeplike/ship".data, none) :=
  ⟨rfl, rfl, rfl⟩

/-- Claim C6: `insert` errors exactly on a non-root receiver
(`InsertOnNonRoot`, checked first), an empty pattern (`EmptyPattern`) and
a pattern not starting with `/` (`MustStartWithSlash`); in each error case
the returned tree is the unchanged receiver; every pattern starting with
`/` inserted on a root node succeeds. -/
theorem c6_insert_error_cases (n : Node) (p : List Char) (v : Route) :
    (n.classify ≠ .NodeRoot → n.insert p v = (n, some "insert on non root node")) ∧
    (n.classify = .NodeRoot → p = [] →
        n.insert p v = (n, some "empty pattern is not support")) ∧
    (n.classify = .NodeRoot → ∀ c cs, p = c :: cs → c ≠ '/' →
        n.insert p v = (n, some "path must start with '/'")) ∧
    (n.classify = .NodeRoot → ∀ cs, p = '/' :: cs → (n.insert p v).2 = none) := by
  refine ⟨fun h => ?_, fun h he => ?_, fun h c cs he hc => ?_, fun h cs he => ?_⟩
  · simp [Node.insert, h]
  · subst he; simp [Node.insert, h]
  · subst he; simp [Node.insert, h, hc]
  · subst he; simp [Node.insert, h]

/-- Witness for C6 at concrete inputs: a non-root node rejects, the empty
pattern and a pattern missing the leading slash reject on a fresh root,
and a well-formed pattern is accepted. -/
theorem c6_insert_error_cases_witness :
    ((Node.mk eof none .nodeEnd []).insert "/a".data ⟨"/a".data, 1⟩
        = (Node.mk eof none .nodeEnd [], some "insert on non root node")) ∧
    (root0.insert [] ⟨[], 1⟩ = (root0, some "empty pattern is not support")) ∧
    (root0.insert "a".data ⟨"a".data, 1⟩ = (root0, some "path must start with '/'")) ∧
    ((root0.insert "/a".data ⟨"/a".data, 1⟩).2 = none) :=
  ⟨(c6_insert_error_cases _ _ _).1 (by simp),
   (c6_insert_error_cases _ _ _).2.1 rfl rfl,
   (c6_insert_error_cases _ _ _).2.2.1 rfl 'a' [] rfl (by decide),
   (c6_insert_error_cases _ _ _).2.2.2 rfl "a".data rfl⟩

/-- Claim C9: the middleware fold of `Route.ServeHTTP` applies the
middleware list left to right onto the base handler, so the empty list
leaves the handler untouched, the last-registered middleware is the
outermost wrapper, and the result is exactly
`wares[n-1] (wares[n-2] (... wares[0] base))`, i.e. the right fold of the
reversed list. -/
theorem c9_middleware_order (α : Type) (ws : List (α → α)) (w : α → α) (base : α) :
    applyMiddleware [] base = base ∧
    applyMiddleware (ws ++ [w]) base = w (applyMiddleware ws base) ∧
    applyMiddleware ws base = ws.reverse.foldr (fun m acc => m acc) base := by
  refine ⟨rfl, ?_, ?_⟩
  · simp [applyMiddleware]
  · rw [List.foldr_reverse]; rfl

/-- Claim C4: a `:`-keyed (Parameter) child wins over a Literal child.
During the walk, whenever the current node has a `:`-keyed child and the
walk is not mid-parameter, `find` descends into it — regardless of any
literal child for the current character.  Consequently, with both
`/users/:id` (R1) and `/users/new` (R2) registered in either order,
looking up `/users/new` returns R1, and extraction against R1's pattern
yields exactly the pair `id = new`. -/
theorem c4_param_beats_literal :
    (∀ (level param : Node) (ch : Char) (rest : List Char),
        level.findChild ':' = some param →
        level.findLoop false (ch :: rest) = param.findLoop true rest) ∧
    (insertAll root0 [("/users/:id".data, ⟨"/users/:id".data, 1⟩),
        ("/users/new".data, ⟨"/users/new".data, 2⟩)]).find "/users/new".data
      = (some ⟨"/users/:id".data, 1⟩, none) ∧
    (insertAll root0 [("/users/new".data, ⟨"/users/new".data, 2⟩),
        ("/users/:id".data, ⟨"/users/:id".data, 1⟩)]).find "/users/new".data
      = (some ⟨"/users/:id".data, 1⟩, none) ∧
    ParseParameter "/users/new".data "/users/:id".data = ("id:new".data, none) ∧
    loadParams "id:new".data = [("id".data, "new".data)] := by
  refine ⟨fun level param ch rest h => ?_, rfl, rfl, rfl, rfl⟩
  rw [Node.findLoop]
  simp [h]

/-- Witness for C4's universal conjunct at a concrete node that has both a
Parameter child and a Literal child for the scanned character. -/
theorem c4_param_beats_literal_witness :
    (Node.mk '/' none .nodeNormal
        [Node.mk 'n' none .nodeNormal [], Node.mk ':' none .nodeParam []]).findLoop
        false ['n']
      = (Node.mk ':' none .nodeParam []).findLoop true [] :=
  c4_param_beats_literal.1 _ (Node.mk ':' none .nodeParam []) 'n' [] rfl

/-- Claim C5 is false on the code: with `/a/:x` (R1) and `/a/*y` (R2) both
registered, looking up `/a/b` returns the Parameter route R1, not the
catch-all route — `find` tests the `:`-keyed child before the `*`-keyed
child, so the lookup does not resolve via the catch-all branch. -/
theorem c5_counterexample :
    (insertAll root0 [("/a/:x".data, ⟨"/a/:x".data, 1⟩),
        ("/a/*y".data, ⟨"/a/*y".data, 2⟩)]).find "/a/b".data
      = (some ⟨"/a/:x".data, 1⟩, none) ∧
    (⟨"/a/:x".data, 1⟩ : Route) ≠ ⟨"/a/*y".data, 2⟩ :=
  ⟨rfl, by decide⟩

/-- Claim C5 amended: at a node owning both a `:`-keyed child and a
`*`-keyed child, the walk selects the Parameter child; the CatchAll child
is only reached when no Parameter child exists.  With both `/a/:x` and
`/a/*y` registered, `/a/b` resolves via the parameter branch to R1. -/
theorem c5_amended_param_beats_catchall :
    (∀ (level param ca : Node) (ch : Char) (rest : List Char),
        level.findChild ':' = some param →
        level.findChild '*' = some ca →
        level.findLoop false (ch :: rest) = param.findLoop true rest) ∧
    (insertAll root0 [("/a/:x".data, ⟨"/a/:x".data, 1⟩),
        ("/a/*y".data, ⟨"/a/*y".data, 2⟩)]).find "/a/b".data
      = (some ⟨"/a/:x".data, 1⟩, none) := by
  refine ⟨fun level param ca ch rest h _ => ?_, rfl⟩
  rw [Node.findLoop]
  simp [h]

/-- Witness for C5's amended universal conjunct at a concrete node owning
both a Parameter child and a CatchAll child. -/
theorem c5_amended_witness :
    (Node.mk '/' none .nodeNormal
        [Node.mk ':' none .nodeParam [], Node.mk '*' none .nodeCatchAll []]).findLoop
        false ['b']
      = (Node.mk ':' none .nodeParam []).findLoop true [] :=
  c5_amended_param_beats_catchall.1 _ (Node.mk ':' none .nodeParam [])
    (Node.mk '*' none .nodeCatchAll []) 'b' [] rfl rfl

/-- Claim C2 is false on the code: registering the same pattern `/a`
twice (routes R1 then R2) succeeds both times, but a subsequent lookup
returns the FIRST route R1, not R2 — `findChild` returns the first key
match and the duplicate terminal child is appended after the original. -/
theorem c2_counterexample :
    (root0.insert "/a".data ⟨"/a".data, 1⟩).2 = none ∧
    ((root0.insert "/a".data ⟨"/a".data, 1⟩).1.insert "/a".data ⟨"/a".data, 2⟩).2 = none ∧
    (insertAll root0 [("/a".data, ⟨"/a".data, 1⟩), ("/a".data, ⟨"/a".data, 2⟩)]).find
        "/a".data = (some ⟨"/a".data, 1⟩, none) ∧
    (⟨"/a".data, 1⟩ : Route) ≠ ⟨"/a".data, 2⟩ :=
  ⟨rfl, rfl, rfl, by decide⟩

/-- Claim C3 is false on the code: after the two successful registrations
of `/a` (which the code accepts), the node reached by `/`, `a` has two
children both keyed by the terminal sentinel, so sibling keys are not
pairwise distinct. -/
theorem c3_counterexample :
    (root0.insert "/a".data ⟨"/a".data, 1⟩).2 = none ∧
    ((root0.insert "/a".data ⟨"/a".data, 1⟩).1.insert "/a".data ⟨"/a".data, 2⟩).2 = none ∧
    (((insertAll root0 [("/a".data, ⟨"/a".data, 1⟩), ("/a".data, ⟨"/a".data, 2⟩)]).findChild
          '/').bind (fun m => m.findChild 'a')).map (fun m => m.children.map Node.key)
      = some [eof, eof] ∧
    ¬ ([eof, eof] : List Char).Nodup :=
  ⟨rfl, rfl, rfl, by decide⟩

/-- Claim C8: once the character walk completes at a final node, `find`
resolves exactly as the spec describes — terminal child first, then a
`/`-keyed child owning a terminal child (tolerating a trailing slash in
the pattern, e.g. pattern `/a/` matches path `/a`), else `RouteNotFound`
(e.g. pattern `/a/b` does not match path `/a`). -/
theorem c8_resolution :
    (∀ (n : Node) (p : List Char) (level : Node),
        n.classify = .NodeRoot → p ≠ [] →
        n.findLoop false p = some level → n.find p = specResolve level) ∧
    (root0.insert "/a/".data ⟨"/a/".data, 1⟩).1.find "/a".data
      = (some ⟨"/a/".data, 1⟩, none) ∧
    (root0.insert "/a/b".data ⟨"/a/b".data, 1⟩).1.find "/a".data
      = (none, some routeNotFound) := by
  refine ⟨fun n p level hcl hp hloop => ?_, rfl, rfl⟩
  rw [Node.find.eq_def]
  rcases p with _ | ⟨c, cs⟩
  · exact absurd rfl hp
  · simp [hcl, hloop, specResolve]

/-- Witness for C8's universal conjunct: the trie of pattern `/a/` looked
up at `/a` stops at the `a` node, and `find` agrees with the spec-side
resolution there. -/
theorem c8_resolution_witness :
    (root0.insert "/a/".data ⟨"/a/".data, 1⟩).1.find "/a".data
      = specResolve (Node.mk 'a' none .nodeNormal
          [Node.mk '/' none .nodeNormal [Node.mk eof (some ⟨"/a/".data, 1⟩) .nodeEnd []]]) :=
  c8_resolution.1 _ _ _ rfl (by decide) rfl

theorem splitChar_ne_nil (sep : Char) (s : List Char) : splitChar sep s ≠ [] := by
  induction s with
  | nil => simp [splitChar]
  | cons c rest ih =>
    rw [splitChar]
    split
    · simp
    · split <;> simp

theorem mem_splitChar_not_mem {sep : Char} {s t : List Char}
    (h : t ∈ splitChar sep s) : sep ∉ t := by
  induction s generalizing t with
  | nil =>
    simp only [splitChar, List.mem_singleton] at h
    subst h; simp
  | cons c rest ih =>
    rw [splitChar] at h
    by_cases hc : c = sep
    · rw [if_pos hc] at h
      rcases List.mem_cons.mp h with h | h
      · subst h; simp
      · exact ih h
    · rw [if_neg hc] at h
      rcases hsplit : splitChar sep rest with _ | ⟨t0, ts⟩
      · exact absurd hsplit (splitChar_ne_nil sep rest)
      · rw [hsplit] at h
        rcases List.mem_cons.mp h with h | h
        · subst h
          intro hmem
          rcases List.mem_cons.mp hmem with h | h
          · exact hc h.symm
          · exact ih (hsplit ▸ List.mem_cons_self t0 ts) h
        · exact ih (hsplit ▸ List.mem_cons_of_mem t0 h)

theorem mem_splitChar_subset {sep c : Char} {s t : List Char}
    (h : t ∈ splitChar sep s) (hc : c ∈ t) : c ∈ s := by
  induction s generalizing t with
  | nil =>
    simp only [splitChar, List.mem_singleton] at h
    subst h; simp at hc
  | cons a rest ih =>
    rw [splitChar] at h
    by_cases ha : a = sep
    · rw [if_pos ha] at h
      rcases List.mem_cons.mp h with h | h
      · subst h; simp at hc
      · exact List.mem_cons_of_mem a (ih h hc)
    · rw [if_neg ha] at h
      rcases hsplit : splitChar sep rest with _ | ⟨t0, ts⟩
      · exact absurd hsplit (splitChar_ne_nil sep rest)
      · rw [hsplit] at h
        rcases List.mem_cons.mp h with h | h
        · subst h
          rcases List.mem_cons.mp hc with h | h
          · exact h ▸ List.mem_cons_self a rest
          · exact List.mem_cons_of_mem a (ih (hsplit ▸ List.mem_cons_self t0 ts) h)
        · exact List.mem_cons_of_mem a (ih (hsplit ▸ List.mem_cons_of_mem t0 h) hc)

theorem splitChar_of_not_mem {sep : Char} {s : List Char} (h : sep ∉ s) :
    splitChar sep s = [s] := by
  induction s with
  | nil => rfl
  | cons c rest ih =>
    rw [splitChar]
    have hc : ¬ c = sep := fun hc => h (hc ▸ List.mem_cons_self c rest)
    rw [if_neg hc, ih (fun hm => h (List.mem_cons_of_mem c hm))]

theorem splitChar_append_cons {sep : Char} {a : List Char} (b : List Char)
    (h : sep ∉ a) : splitChar sep (a ++ sep :: b) = a :: splitChar sep b := by
  induction a with
  | nil => simp [splitChar]
  | cons c a' ih =>
    have hc : ¬ c = sep := fun hc => h (hc ▸ List.mem_cons_self c a')
    rw [List.cons_append, splitChar, if_neg hc,
        ih (fun hm => h (List.mem_cons_of_mem c hm))]

theorem ppLoop_star_not_last (p1 : List (List Char)) (s2 : Nat) :
    ∀ (rem : List (List Char)) (k : Nat) (acc : List Char),
      k + rem.length = s2 →
      (∃ j, j < rem.length ∧ ((rem.getD j []).head? = some '*') ∧ k + j < s2 - 1) →
      (ppLoop p1 s2 rem k acc).2 = some badPattern := by
  intro rem
  induction rem with
  | nil =>
    rintro k acc _ ⟨j, hj, _, _⟩
    simp at hj
  | cons v rest ih =>
    rintro k acc hlen ⟨j, hj, hstar, hlt⟩
    rw [ppLoop]
    by_cases h1 : v.head? = some ':'
    · rw [if_pos h1]
      rcases j with _ | j'
      · rw [List.getD_cons_zero] at hstar
        rw [h1] at hstar
        simp at hstar
      · exact ih (k + 1) _ (by simp at hlen ⊢; omega)
          ⟨j', by simp at hj; omega, by simpa using hstar, by omega⟩
    · rw [if_neg h1]
      by_cases h2 : v.head? = some '*'
      · rw [if_pos h2, if_pos (show k ≠ s2 - 1 by omega)]
      · rw [if_neg h2]
        rcases j with _ | j'
        · rw [List.getD_cons_zero] at hstar
          exact absurd hstar h2
        · exact ih (k + 1) _ (by simp at hlen ⊢; omega)
            ⟨j', by simp at hj; omega, by simpa using hstar, by omega⟩

/-- Claim C7: the anonymous catch-all `/hello/*` matches `/hello/a/b`,
returning the registered route, and extraction produces the single pair
`catch = a/b` (default name `catch`, value the `/`-join of the remaining
path segments); extraction fails with `BadPattern` whenever the path has
fewer `/`-separated segments than a pattern containing `:` or `*`, and
whenever a `*`-segment occurs at a non-final pattern position. -/
theorem c7_anonymous_catchall :
    ((root0.insert "/hello/*".data ⟨"/hello/*".data, 1⟩).2 = none ∧
     (root0.insert "/hello/*".data ⟨"/hello/*".data, 1⟩).1.find "/hello/a/b".data
       = (some ⟨"/hello/*".data, 1⟩, none) ∧
     ParseParameter "/hello/a/b".data "/hello/*".data = ("catch:a/b".data, none) ∧
     loadParams "catch:a/b".data = [(catchName, "a/b".data)]) ∧
    (∀ (mat pattern : List Char),
        (pattern.contains ':' || pattern.contains '*') = true →
        (splitChar '/' mat).length < (splitChar '/' pattern).length →
        ParseParameter mat pattern = ([], some badPattern)) ∧
    (∀ (mat pattern : List Char) (j : Nat),
        j < (splitChar '/' pattern).length →
        ((splitChar '/' pattern).getD j []).head? = some '*' →
        j ≠ (splitChar '/' pattern).length - 1 →
        (ParseParameter mat pattern).2 = some badPattern) := by
  refine ⟨⟨rfl, rfl, rfl, rfl⟩, fun mat pattern hcont hlt => ?_,
    fun mat pattern j hj hstar hne => ?_⟩
  · rw [ParseParameter, if_pos hcont]
    simp only []
    rw [if_pos hlt]
  · have hmem : '*' ∈ pattern := by
      have hseg : (splitChar '/' pattern).getD j [] ∈ splitChar '/' pattern := by
        rw [List.getD_eq_getElem _ _ hj]
        exact List.getElem_mem hj
      rcases hd : (splitChar '/' pattern).getD j [] with _ | ⟨c0, t0⟩
      · rw [hd] at hstar; simp at hstar
      · rw [hd] at hstar
        simp only [List.head?] at hstar
        have hc0 : c0 = '*' := by injection hstar
        exact mem_splitChar_subset (hd ▸ hseg) (hc0 ▸ List.mem_cons_self c0 t0)
    have hcont : (pattern.contains ':' || pattern.contains '*') = true := by
      have hpc : pattern.contains '*' = true := by simpa using hmem
      simp [hmem]
    rw [ParseParameter, if_pos hcont]
    simp only []
    by_cases hlt : (splitChar '/' mat).length < (splitChar '/' pattern).length
    · rw [if_pos hlt]
    · rw [if_neg hlt]
      exact ppLoop_star_not_last _ _ _ 0 [] (by simp) ⟨j, hj, hstar, by omega⟩

/-- Witness for C7's universal conjuncts at concrete inputs: `/a` has too
few segments for `/a/:x`, and `/a/*x/c` has its catch-all in a non-final
segment. -/
theorem c7_anonymous_catchall_witness :
    ParseParameter "/a".data "/a/:x".data = ([], some badPattern) ∧
    (ParseParameter "/a/b/c".data "/a/*x/c".data).2 = some badPattern :=
  ⟨c7_anonymous_catchall.2.1 "/a".data "/a/:x".data (by decide) (by decide),
   c7_anonymous_catchall.2.2 "/a/b/c".data "/a/*x/c".data 2 (by decide) (by decide)
     (by decide)⟩

theorem mem_upsert {m : List (List Char × List Char)} {k v : List Char}
    {p : List Char × List Char} (h : p ∈ upsert m k v) : p ∈ m ∨ p = (k, v) := by
  induction m with
  | nil =>
    rw [upsert] at h
    exact Or.inr (List.mem_singleton.mp h)
  | cons q rest ih =>
    cases q with
    | mk k' v' =>
      rw [upsert] at h
      by_cases hk : k' = k
      · rw [if_pos hk] at h
        rcases List.mem_cons.mp h with h | h
        · exact Or.inr h
        · exact Or.inl (List.mem_cons_of_mem _ h)
      · rw [if_neg hk] at h
        rcases List.mem_cons.mp h with h | h
        · exact Or.inl (h ▸ List.mem_cons_self _ _)
        · rcases ih h with h | h
          · exact Or.inl (List.mem_cons_of_mem _ h)
          · exact Or.inr h

theorem lookupP_mem {m : List (List Char × List Char)} {k v : List Char}
    (h : lookupP m k = some v) : (k, v) ∈ m := by
  rw [lookupP] at h
  rcases hf : m.find? (fun p => p.1 == k) with _ | p0
  · rw [hf] at h; simp at h
  · rw [hf] at h
    simp at h
    have hmem := List.mem_of_find?_eq_some hf
    have hpred := List.find?_some hf
    have hk : p0.1 = k := by simpa using hpred
    have : p0 = (k, v) := by
      cases p0
      simp_all
    exact this ▸ hmem

theorem loadPairs_values_clean :
    ∀ (frags : List (List Char)) (m : List (List Char × List Char)),
      (∀ p ∈ m, ':' ∉ p.2 ∧ ',' ∉ p.2) →
      (∀ f ∈ frags, ',' ∉ f) →
      ∀ p ∈ loadPairs m frags, ':' ∉ p.2 ∧ ',' ∉ p.2 := by
  intro frags
  induction frags with
  | nil =>
    intro m hm _ p hp
    rw [loadPairs] at hp
    exact hm p hp
  | cons frag rest ih =>
    intro m hm hf p hp
    rcases hsp : splitChar ':' frag with _ | ⟨n, _ | ⟨v, _ | _⟩⟩ <;>
      rw [loadPairs, hsp] at hp
    · exact ih m hm (fun f hfm => hf f (List.mem_cons_of_mem frag hfm)) p hp
    · exact ih m hm (fun f hfm => hf f (List.mem_cons_of_mem frag hfm)) p hp
    · refine ih _ (fun q hq => ?_) (fun f hfm => hf f (List.mem_cons_of_mem frag hfm)) p hp
      rcases mem_upsert hq with hq | hq
      · exact hm q hq
      · subst hq
        have hvmem : v ∈ splitChar ':' frag := hsp ▸ List.mem_cons_of_mem n (List.mem_cons_self v [])
        refine ⟨mem_splitChar_not_mem hvmem, fun hc => ?_⟩
        exact hf frag (List.mem_cons_self frag rest) (mem_splitChar_subset hvmem hc)
    · exact ih m hm (fun f hfm => hf f (List.mem_cons_of_mem frag hfm)) p hp

/-- Claim C10 amended: the flat `name:value,...` encoding is only safe for
benign pairs.  Every value the loader recovers is free of `:` and `,`, so
a pair whose value contains either character is never recovered — in
particular the catch-all value `a:b` extracted from `/hello/a:b` against
`/hello/*` is silently dropped and the handler sees no `catch` entry.
Conversely a single-pair result whose name and value are both free of `:`
and `,` loads back to exactly that pair.  (The unconditional
value-only-cleanliness criterion of the claim fails: a `:` inside the
NAME also destroys the pair, see the counterexample.) -/
theorem c10_amended_roundtrip :
    (∀ (source n v : List Char), lookupP (loadParams source) n = some v →
        ':' ∉ v ∧ ',' ∉ v) ∧
    (∀ (n v : List Char), ':' ∉ n → ',' ∉ n → ':' ∉ v → ',' ∉ v →
        loadParams (n ++ ':' :: v) = [(n, v)]) ∧
    (ParseParameter "/hello/a:b".data "/hello/*".data = ("catch:a:b".data, none) ∧
     loadParams "catch:a:b".data = [] ∧
     lookupP (loadParams "catch:a:b".data) catchName = none) := by
  refine ⟨fun source n v h => ?_, fun n v hn1 hn2 hv1 hv2 => ?_, rfl, rfl, rfl⟩
  · have hmem := lookupP_mem h
    exact loadPairs_values_clean (splitChar ',' source) [] (by simp)
      (fun f hfm => mem_splitChar_not_mem hfm) (n, v) hmem
  · have hcomma : ',' ∉ n ++ ':' :: v := by
      intro hmm
      rcases List.mem_append.mp hmm with h | h
      · exact hn2 h
      · rcases List.mem_cons.mp h with h | h
        · exact absurd h (by decide)
        · exact hv2 h
    rw [loadParams, splitChar_of_not_mem hcomma, loadPairs,
        splitChar_append_cons v hn1, splitChar_of_not_mem hv1]
    rfl

/-- Witness for C10's amended universal conjuncts: the benign single pair
`id:new` round-trips, and a value recovered from it is clean. -/
theorem c10_amended_roundtrip_witness :
    loadParams ("id".data ++ ':' :: "new".data) = [("id".data, "new".data)] ∧
    (':' ∉ "new".data ∧ ',' ∉ "new".data) :=
  ⟨c10_amended_roundtrip.2.1 "id".data "new".data (by decide) (by decide) (by decide)
      (by decide),
   c10_amended_roundtrip.1 "id:new".data "id".data "new".data rfl⟩

/-- Claim C10 is false as stated: the extraction result `a:b:x` produced
by `ParseParameter` from path `/x` against pattern `/:a:b` has the pair
(name `a:b`, value `x`) with a value containing neither `:` nor `,`, yet
loading the result recovers nothing — the `:` inside the name makes the
fragment split into three parts, so it is silently skipped. -/
theorem c10_counterexample :
    ParseParameter "/x".data "/:a:b".data = ("a:b:x".data, none) ∧
    loadParams "a:b:x".data = [] ∧
    lookupP (loadParams "a:b:x".data) "a:b".data = none ∧
    ':' ∉ "x".data ∧ ',' ∉ "x".data :=
  ⟨rfl, rfl, rfl, by decide, by decide⟩

theorem kindOf_ne_end (c : Char) : kindOf c ≠ Classify.nodeEnd := by
  rw [kindOf]
  split
  · decide
  · split <;> decide

theorem nonEndKeys_append (cs ds : List Node) :
    nonEndKeys (cs ++ ds) = nonEndKeys cs ++ nonEndKeys ds := by
  simp [nonEndKeys, List.filter_append]

theorem nonEndKeys_cons (c : Node) (cs : List Node) :
    nonEndKeys (c :: cs) =
      if c.classify = Classify.nodeEnd then nonEndKeys cs
      else c.key :: nonEndKeys cs := by
  by_cases h : c.classify = Classify.nodeEnd <;>
    simp [nonEndKeys, List.filter_cons, h]

theorem nonEndKeys_updateFirst (key : Char) (f : Node → Node) (cs : List Node)
    (hk : ∀ x, (f x).key = x.key) (hc : ∀ x, (f x).classify = x.classify) :
    nonEndKeys (updateFirst key f cs) = nonEndKeys cs := by
  induction cs with
  | nil => rfl
  | cons c rest ih =>
    rw [updateFirst]
    by_cases h : (c.key == key) = true
    · rw [if_pos h, nonEndKeys_cons, nonEndKeys_cons, hc c, hk c]
    · rw [if_neg h, nonEndKeys_cons, nonEndKeys_cons, ih]

theorem mem_updateFirst {key : Char} {f : Node → Node} {cs : List Node} {x : Node}
    (h : x ∈ updateFirst key f cs) : x ∈ cs ∨ ∃ c ∈ cs, x = f c := by
  induction cs with
  | nil => simp [updateFirst] at h
  | cons c rest ih =>
    rw [updateFirst] at h
    by_cases hk : (c.key == key) = true
    · rw [if_pos hk] at h
      rcases List.mem_cons.mp h with h | h
      · exact Or.inr ⟨c, List.mem_cons_self c rest, h⟩
      · exact Or.inl (List.mem_cons_of_mem c h)
    · rw [if_neg hk] at h
      rcases List.mem_cons.mp h with h | h
      · exact Or.inl (h ▸ List.mem_cons_self c rest)
      · rcases ih h with h | ⟨c', hc', he⟩
        · exact Or.inl (List.mem_cons_of_mem c h)
        · exact Or.inr ⟨c', List.mem_cons_of_mem c hc', he⟩

theorem findChild_none_keys {k : Char} {v : Option Route} {cl : Classify}
    {cs : List Node} {ch : Char}
    (h : (Node.mk k v cl cs).findChild ch = none) : ∀ c ∈ cs, c.key ≠ ch := by
  rw [Node.findChild] at h
  simp only [Node.children_mk] at h
  intro c hc hkey
  have hp := List.find?_eq_none.mp h c hc
  rw [hkey] at hp
  simp at hp

theorem not_mem_nonEndKeys {cs : List Node} {ch : Char}
    (h : ∀ c ∈ cs, c.key ≠ ch) : ch ∉ nonEndKeys cs := by
  intro hm
  rw [nonEndKeys] at hm
  rcases List.mem_map.mp hm with ⟨c, hc, hkey⟩
  exact h c (List.mem_of_mem_filter hc) hkey

theorem keysWF_insertLoop (value : Route) :
    ∀ (cs : List Char) (n : Node), KeysWF n → KeysWF (Node.insertLoop value n cs) := by
  intro cs
  induction cs with
  | nil =>
    intro n hn
    cases n with
    | mk k v cl children =>
      rw [Node.insertLoop]
      cases hn with
      | mk hnd hall =>
        refine KeysWF.mk ?_ ?_
        · rw [nonEndKeys_append, nonEndKeys_cons]
          simpa [nonEndKeys] using hnd
        · intro c hc
          rcases List.mem_append.mp hc with hc | hc
          · exact hall c hc
          · rw [List.mem_singleton] at hc
            subst hc
            exact KeysWF.mk (by simp [nonEndKeys]) (by simp)
  | cons ch rest ih =>
    intro n hn
    cases n with
    | mk k v cl children =>
      rw [Node.insertLoop]
      by_cases hskip : cl = Classify.nodeParam ∧ ch ≠ '/'
      · rw [if_pos hskip]
        exact ih _ hn
      · rw [if_neg hskip]
        cases hn with
        | mk hnd hall =>
          rcases hfc : (Node.mk k v cl children).findChild ch with _ | c <;>
            simp only [hfc]
          · refine KeysWF.mk ?_ ?_
            · rw [nonEndKeys_append, nonEndKeys_cons]
              rw [if_neg (by rw [insertLoop_classify]; simpa using kindOf_ne_end ch)]
              rw [insertLoop_key]
              simp only [Node.key_mk]
              have hnotin : ch ∉ nonEndKeys children :=
                not_mem_nonEndKeys (findChild_none_keys hfc)
              have hnilkeys : nonEndKeys ([] : List Node) = [] := rfl
              rw [hnilkeys, List.nodup_append]
              refine ⟨hnd, by simp, fun a ha hb => ?_⟩
              rw [List.mem_singleton] at hb
              exact hnotin (hb ▸ ha)
            · intro c hc
              rcases List.mem_append.mp hc with hc | hc
              · exact hall c hc
              · rw [List.mem_singleton] at hc
                subst hc
                exact ih _ (KeysWF.mk (by simp [nonEndKeys]) (by simp))
          · refine KeysWF.mk ?_ ?_
            · rw [nonEndKeys_updateFirst ch _ children
                (fun x => insertLoop_key value x rest)
                (fun x => insertLoop_classify value x rest)]
              exact hnd
            · intro x hx
              rcases mem_updateFirst hx with hx | ⟨c', hc', he⟩
              · exact hall x hx
              · subst he
                exact ih _ (hall c' hc')

theorem keysWF_insert (n : Node) (p : List Char) (v : Route) (hn : KeysWF n) :
    KeysWF (n.insert p v).1 := by
  rw [Node.insert.eq_def]
  split
  · exact hn
  · split
    · exact hn
    · split
      · exact hn
      · exact keysWF_insertLoop v _ _ hn

theorem keysWF_insertAll :
    ∀ (regs : List (List Char × Route)) (n : Node), KeysWF n → KeysWF (insertAll n regs) := by
  intro regs
  induction regs with
  | nil =>
    intro n hn
    exact hn
  | cons pr rest ih =>
    intro n hn
    cases pr with
    | mk p r =>
      rw [insertAll]
      exact ih _ (keysWF_insert n p r hn)

/-- Claim C3 amended: in every trie reachable by a sequence of insert
operations from a fresh root, the keys of the NON-terminal children of
each node are pairwise distinct — the loop never creates a child with
a key an existing child already carries.  Full sibling-key uniqueness
fails only for terminal-sentinel children: a duplicate registration
appends a second terminal child with the same sentinel key (see the
counterexample). -/
theorem c3_amended_nonterminal_keys_distinct (regs : List (List Char × Route)) :
    KeysWF (insertAll root0 regs) :=
  keysWF_insertAll regs root0 (KeysWF.mk (by simp [nonEndKeys]) (by simp))

theorem Sim.key_eq {n₁ n₂ : Node} (h : Sim n₁ n₂) : n₁.key = n₂.key := by
  cases h; rfl

theorem Sim.value_eq {n₁ n₂ : Node} (h : Sim n₁ n₂) : n₁.value = n₂.value := by
  cases h; rfl

theorem Sim.classify_eq {n₁ n₂ : Node} (h : Sim n₁ n₂) : n₁.classify = n₂.classify := by
  cases h; rfl

mutual
theorem sim_refl : ∀ n, Sim n n
  | .mk k v cl cs => by
      have h := @Sim.mk k v cl cs cs [] (simList_refl cs) (by simp)
      simpa using h

theorem simList_refl : ∀ l, SimList l l
  | [] => .nil
  | c :: cs => .cons (sim_refl c) (simList_refl cs)
end

theorem simList_append : ∀ {as bs cs ds : List Node},
    SimList as bs → SimList cs ds → SimList (as ++ cs) (bs ++ ds) := by
  intro as
  induction as with
  | nil =>
    intro bs cs ds h1 h2
    cases h1
    simpa using h2
  | cons a as' ih =>
    intro bs cs ds h1 h2
    cases h1 with
    | cons hab hrest => exact .cons hab (ih hrest h2)

theorem sim_of_simList {k : Char} {v : Option Route} {cl : Classify}
    {cs₁ cs₂ : List Node} (h : SimList cs₁ cs₂) :
    Sim (.mk k v cl cs₁) (.mk k v cl cs₂) := by
  have hx := @Sim.mk k v cl cs₁ cs₂ [] h (by simp)
  simpa using hx

theorem find?_simList {cs₁ cs₂ : List Node} (h : SimList cs₁ cs₂) (ch : Char) :
    (cs₁.find? (fun c => c.key == ch) = none ∧ cs₂.find? (fun c => c.key == ch) = none) ∨
    (∃ c₁ c₂, cs₁.find? (fun c => c.key == ch) = some c₁ ∧
      cs₂.find? (fun c => c.key == ch) = some c₂ ∧ Sim c₁ c₂) := by
  induction cs₁ generalizing cs₂ with
  | nil =>
    cases h
    exact Or.inl ⟨rfl, rfl⟩
  | cons a as ih =>
    cases h with
    | @cons _ b _ bs hab hrest =>
      by_cases hk : (a.key == ch) = true
      · have hbk : (b.key == ch) = true := by rw [← Sim.key_eq hab]; exact hk
        simp only [List.find?, hk, hbk]
        exact Or.inr ⟨a, b, rfl, rfl, hab⟩
      · have hkf : (a.key == ch) = false := by simpa using hk
        have hbkf : (b.key == ch) = false := by rw [← Sim.key_eq hab]; exact hkf
        simp only [List.find?, hkf, hbkf]
        exact ih hrest

theorem findChild_sim {n₁ n₂ : Node} (h : Sim n₁ n₂) (ch : Char) :
    (n₁.findChild ch = none ∧ n₂.findChild ch = none) ∨
    (∃ c₁ c₂, n₁.findChild ch = some c₁ ∧ n₂.findChild ch = some c₂ ∧ Sim c₁ c₂) := by
  cases h with
  | @mk k v cl cs₁ cs₂ ex hsl hex =>
    rw [Node.findChild, Node.findChild]
    simp only [Node.children_mk]
    rcases find?_simList hsl ch with ⟨h1, h2⟩ | ⟨c₁, c₂, h1, h2, hsim⟩
    · by_cases hexn : ex = []
      · subst hexn
        rw [List.append_nil]
        exact Or.inl ⟨h1, h2⟩
      · obtain ⟨hkeys, c, hcmem, hckey⟩ := hex hexn
        by_cases hch : ch = eof
        · exfalso
          have hp := List.find?_eq_none.mp h2 c hcmem
          rw [hckey, hch] at hp
          simp at hp
        · refine Or.inl ⟨h1, ?_⟩
          rw [List.find?_eq_none]
          intro x hx
          rcases List.mem_append.mp hx with hx | hx
          · exact List.find?_eq_none.mp h2 x hx
          · rw [hkeys x hx]
            have hne : eof ≠ ch := fun he => hch he.symm
            simpa using hne
    · refine Or.inr ⟨c₁, c₂, h1, ?_, hsim⟩
      rw [List.find?_append, h2]
      rfl

theorem findLoop_sim : ∀ (p : List Char) (isP : Bool) (n₁ n₂ : Node), Sim n₁ n₂ →
    (n₁.findLoop isP p = none ∧ n₂.findLoop isP p = none) ∨
    (∃ l₁ l₂, n₁.findLoop isP p = some l₁ ∧ n₂.findLoop isP p = some l₂ ∧ Sim l₁ l₂) := by
  intro p
  induction p with
  | nil =>
    intro isP n₁ n₂ h
    exact Or.inr ⟨n₁, n₂, rfl, rfl, h⟩
  | cons ch rest ih =>
    intro isP n₁ n₂ h
    rw [Node.findLoop, Node.findLoop]
    by_cases hskip : isP = true ∧ ch ≠ '/'
    · rw [if_pos hskip, if_pos hskip]
      exact ih true n₁ n₂ h
    · rw [if_neg hskip, if_neg hskip]
      rcases findChild_sim h ':' with ⟨hp1, hp2⟩ | ⟨p₁, p₂, hp1, hp2, hps⟩
      · rw [hp1, hp2]
        rcases findChild_sim h '*' with ⟨hs1, hs2⟩ | ⟨s₁, s₂, hs1, hs2, hss⟩
        · rw [hs1, hs2]
          rcases findChild_sim h ch with ⟨hc1, hc2⟩ | ⟨c₁, c₂, hc1, hc2, hcs⟩
          · rw [hc1, hc2]
            exact Or.inl ⟨rfl, rfl⟩
          · rw [hc1, hc2]
            exact ih false c₁ c₂ hcs
        · rw [hs1, hs2]
          exact Or.inr ⟨s₁, s₂, rfl, rfl, hss⟩
      · rw [hp1, hp2]
        exact ih true p₁ p₂ hps

theorem find_sim {n₁ n₂ : Node} (h : Sim n₁ n₂) (p : List Char) :
    n₁.find p = n₂.find p := by
  rw [Node.find.eq_def, Node.find.eq_def, Sim.classify_eq h]
  by_cases hcl : n₂.classify ≠ Classify.NodeRoot
  · rw [if_pos hcl, if_pos hcl]
  · rw [if_neg hcl, if_neg hcl]
    rcases p with _ | ⟨c, cs⟩
    · rfl
    · rcases findLoop_sim (c :: cs) false n₁ n₂ h with ⟨h1, h2⟩ | ⟨l₁, l₂, h1, h2, hl⟩
      · simp only [h1, h2]
      · simp only [h1, h2]
        rcases findChild_sim hl eof with ⟨he1, he2⟩ | ⟨e₁, e₂, he1, he2, hes⟩
        · simp only [he1, he2]
          rcases findChild_sim hl '/' with ⟨hs1, hs2⟩ | ⟨s₁, s₂, hs1, hs2, hss⟩
          · simp only [hs1, hs2]
          · simp only [hs1, hs2]
            rcases findChild_sim hss eof with ⟨ht1, ht2⟩ | ⟨t₁, t₂, ht1, ht2, hts⟩
            · simp only [ht1, ht2]
            · simp only [ht1, ht2, Sim.value_eq hts]
        · simp only [he1, he2, Sim.value_eq hes]

theorem updateFirst_append_no_match {key : Char} (f : Node → Node) {cs : List Node}
    (h : ∀ c ∈ cs, ¬ (c.key == key) = true) {x : Node} (hx : (x.key == key) = true) :
    updateFirst key f (cs ++ [x]) = cs ++ [f x] := by
  induction cs with
  | nil =>
    rw [List.nil_append, updateFirst, if_pos hx]
    rfl
  | cons c rest ih =>
    rw [List.cons_append, updateFirst, if_neg (h c (List.mem_cons_self c rest)),
        ih (fun c' hc' => h c' (List.mem_cons_of_mem c hc'))]
    rfl

theorem find?_updateFirst (key : Char) (f : Node → Node) (cs : List Node)
    (hk : ∀ x, (f x).key = x.key) :
    (updateFirst key f cs).find? (fun c => c.key == key)
      = (cs.find? (fun c => c.key == key)).map f := by
  induction cs with
  | nil => rfl
  | cons c rest ih =>
    rw [updateFirst]
    by_cases h : (c.key == key) = true
    · rw [if_pos h]
      have hfk : ((f c).key == key) = true := by rw [hk c]; exact h
      simp only [List.find?, h, hfk]
      rfl
    · rw [if_neg h]
      have hkf : (c.key == key) = false := by simpa using h
      simp only [List.find?, hkf, ih]

theorem simList_updateFirst (key : Char) (f g : Node → Node) (cs : List Node)
    (hk : ∀ x, (f x).key = x.key) (hfg : ∀ x, Sim (f x) (g (f x))) :
    SimList (updateFirst key f cs) (updateFirst key g (updateFirst key f cs)) := by
  induction cs with
  | nil => exact .nil
  | cons c rest ih =>
    rw [updateFirst]
    by_cases h : (c.key == key) = true
    · rw [if_pos h]
      rw [updateFirst, if_pos (by rw [hk c]; exact h)]
      exact .cons (hfg c) (simList_refl rest)
    · rw [if_neg h]
      rw [updateFirst, if_neg h]
      exact .cons (sim_refl c) ih

theorem insertLoop_twice_sim (v₁ v₂ : Route) :
    ∀ (cs : List Char) (n : Node),
      Sim (Node.insertLoop v₁ n cs)
        (Node.insertLoop v₂ (Node.insertLoop v₁ n cs) cs) := by
  intro cs
  induction cs with
  | nil =>
    intro n
    cases n with
    | mk k v cl children =>
      rw [Node.insertLoop, Node.insertLoop]
      refine Sim.mk (simList_refl _) (fun _ => ⟨?_, ?_⟩)
      · intro e he
        rw [List.mem_singleton] at he
        subst he
        rfl
      · exact ⟨.mk eof (some v₁) .nodeEnd [], by simp, rfl⟩
  | cons ch rest ih =>
    intro n
    cases n with
    | mk k v cl children =>
      by_cases hskip : cl = Classify.nodeParam ∧ ch ≠ '/'
      · have e1 : Node.insertLoop v₁ (.mk k v cl children) (ch :: rest)
            = Node.insertLoop v₁ (.mk k v cl children) rest := by
          rw [Node.insertLoop, if_pos hskip]
        rw [e1]
        have hcl' := insertLoop_classify v₁ (.mk k v cl children) rest
        rcases hT : Node.insertLoop v₁ (.mk k v cl children) rest with ⟨k', v', cl', cs'⟩
        rw [hT] at hcl'
        simp only [Node.classify_mk] at hcl'
        have hskip' : cl' = Classify.nodeParam ∧ ch ≠ '/' := by rw [hcl']; exact hskip
        have e2 : Node.insertLoop v₂ (.mk k' v' cl' cs') (ch :: rest)
            = Node.insertLoop v₂ (.mk k' v' cl' cs') rest := by
          rw [Node.insertLoop, if_pos hskip']
        rw [e2, ← hT]
        exact ih _
      · rcases hfc : (Node.mk k v cl children).findChild ch with _ | c
        · have hfcl : children.find? (fun c => c.key == ch) = none := by
            rw [Node.findChild] at hfc
            simpa using hfc
          have e1 : Node.insertLoop v₁ (.mk k v cl children) (ch :: rest)
              = .mk k v cl
                  (children ++ [Node.insertLoop v₁ (.mk ch none (kindOf ch) []) rest]) := by
            rw [Node.insertLoop, if_neg hskip, hfc]
          have hkey : ((Node.insertLoop v₁ (.mk ch none (kindOf ch) []) rest).key == ch)
              = true := by
            rw [insertLoop_key]
            simp
          have hfc2 : (Node.mk k v cl
              (children ++ [Node.insertLoop v₁ (.mk ch none (kindOf ch) []) rest])).findChild
                ch = some (Node.insertLoop v₁ (.mk ch none (kindOf ch) []) rest) := by
            rw [Node.findChild]
            simp only [Node.children_mk]
            rw [List.find?_append, hfcl]
            simp only [Option.none_or]
            simp only [List.find?, hkey]
          have e2 : Node.insertLoop v₂ (.mk k v cl
                (children ++ [Node.insertLoop v₁ (.mk ch none (kindOf ch) []) rest]))
                (ch :: rest)
              = .mk k v cl (updateFirst ch (fun child => Node.insertLoop v₂ child rest)
                  (children ++ [Node.insertLoop v₁ (.mk ch none (kindOf ch) []) rest])) := by
            rw [Node.insertLoop, if_neg hskip, hfc2]
          have e3 : updateFirst ch (fun child => Node.insertLoop v₂ child rest)
                (children ++ [Node.insertLoop v₁ (.mk ch none (kindOf ch) []) rest])
              = children
                ++ [Node.insertLoop v₂ (Node.insertLoop v₁ (.mk ch none (kindOf ch) []) rest)
                      rest] :=
            updateFirst_append_no_match _
              (fun c' hc' => by
                have := List.find?_eq_none.mp hfcl c' hc'
                simpa using this)
              hkey
          rw [e1, e2, e3]
          exact sim_of_simList
            (simList_append (simList_refl children) (.cons (ih _) .nil))
        · have hfcl : children.find? (fun c => c.key == ch) = some c := by
            rw [Node.findChild] at hfc
            simpa using hfc
          have e1 : Node.insertLoop v₁ (.mk k v cl children) (ch :: rest)
              = .mk k v cl
                  (updateFirst ch (fun child => Node.insertLoop v₁ child rest) children) := by
            rw [Node.insertLoop, if_neg hskip, hfc]
          have hfc2 : (Node.mk k v cl
              (updateFirst ch (fun child => Node.insertLoop v₁ child rest)
                children)).findChild ch
              = some (Node.insertLoop v₁ c rest) := by
            rw [Node.findChild]
            simp only [Node.children_mk]
            rw [find?_updateFirst ch _ children (fun x => insertLoop_key v₁ x rest), hfcl]
            rfl
          have e2 : Node.insertLoop v₂ (.mk k v cl
                (updateFirst ch (fun child => Node.insertLoop v₁ child rest) children))
                (ch :: rest)
              = .mk k v cl (updateFirst ch (fun child => Node.insertLoop v₂ child rest)
                  (updateFirst ch (fun child => Node.insertLoop v₁ child rest) children)) := by
            rw [Node.insertLoop, if_neg hskip, hfc2]
          rw [e1, e2]
          exact sim_of_simList
            (simList_updateFirst ch _ _ children (fun x => insertLoop_key v₁ x rest)
              (fun x => ih x))

theorem insert_ok_shape {n : Node} {p : List Char} {v : Route} {t : Node}
    (h : n.insert p v = (t, none)) :
    n.classify = Classify.NodeRoot ∧ t = Node.insertLoop v n p ∧
    ∃ cs, p = '/' :: cs := by
  rw [Node.insert.eq_def] at h
  split at h
  · simp at h
  · next hcl =>
    split at h
    · simp at h
    · next c cs =>
      split at h
      · simp at h
      · next hc =>
        have hcr : n.classify = Classify.NodeRoot := by
          by_contra hx
          exact hcl hx
        have hcs : c = '/' := by
          by_contra hx
          exact hc hx
        have ht : t = Node.insertLoop v n (c :: cs) := by
          have := congrArg Prod.fst h
          simpa using this.symm
        exact ⟨hcr, ht, cs, by rw [hcs]⟩

theorem insert_ok_of_root {n : Node} (cs : List Char) (v : Route)
    (hcl : n.classify = Classify.NodeRoot) :
    n.insert ('/' :: cs) v = (Node.insertLoop v n ('/' :: cs), none) := by
  rw [Node.insert.eq_def]
  rw [if_neg (by simp [hcl])]
  simp

/-- Claim C2 amended: registering the identical pattern twice succeeds
both times, but the duplicate is inert rather than shadowing — the trie
after the second registration answers every lookup exactly as the trie
after the first registration alone, so a path matching the pattern yields
R1, the FIRST registration, not R2: the second terminal child is appended
after the original and `findChild` returns the first key match. -/
theorem c2_amended_first_registration_wins :
    (∀ (n : Node) (p : List Char) (v₁ v₂ : Route) (t₁ : Node),
        n.insert p v₁ = (t₁, none) →
        (t₁.insert p v₂).2 = none ∧
        ∀ q, (t₁.insert p v₂).1.find q = t₁.find q) ∧
    (insertAll root0 [("/a".data, ⟨"/a".data, 1⟩), ("/a".data, ⟨"/a".data, 2⟩)]).find
        "/a".data = (some ⟨"/a".data, 1⟩, none) := by
  refine ⟨fun n p v₁ v₂ t₁ h => ?_, rfl⟩
  obtain ⟨hcl, ht, cs, hp⟩ := insert_ok_shape h
  subst hp
  subst ht
  have hcl1 : (Node.insertLoop v₁ n ('/' :: cs)).classify = Classify.NodeRoot := by
    rw [insertLoop_classify]
    exact hcl
  have hins2 := insert_ok_of_root cs v₂ hcl1
  rw [hins2]
  exact ⟨rfl, fun q => (find_sim (insertLoop_twice_sim v₁ v₂ ('/' :: cs) n) q).symm⟩

/-- Witness for C2's amended universal conjunct at the concrete duplicate
registration of `/a`: the second insert succeeds and the resulting trie
answers the lookup of `/a` exactly as the single-registration trie. -/
theorem c2_amended_first_registration_wins_witness :
    ((root0.insert "/a".data ⟨"/a".data, 1⟩).1.insert "/a".data ⟨"/a".data, 2⟩).2 = none ∧
    ((root0.insert "/a".data ⟨"/a".data, 1⟩).1.insert "/a".data
        ⟨"/a".data, 2⟩).1.find "/a".data
      = (root0.insert "/a".data ⟨"/a".data, 1⟩).1.find "/a".data := by
  have h := c2_amended_first_registration_wins.1 root0 "/a".data ⟨"/a".data, 1⟩
    ⟨"/a".data, 2⟩ (root0.insert "/a".data ⟨"/a".data, 1⟩).1 rfl
  exact ⟨h.1, h.2 "/a".data⟩

end Alien
